import Mathlib

/-!
Verification of Beetle's chunking agent and evaluation utilities.

Shallow embedding of `src/beetle_backend/src/ai/agents/core/chunking_agent.py`
and `src/beetle_backend/src/ai/utils/evaluation_utils.py`.

Python strings are modelled as `List Char`; Python floats are modelled as
exact arithmetic (`ℚ` for the rational-valued metrics, `ℝ` where `np.log2`
or `np.exp` occur); `round(x, 4)` is modelled as exact round-half-to-even
at 4 decimal places.
-/

set_option autoImplicit false

namespace Beetle

/-! ## Python string primitives -/

/-- Python `str.split()` (no separator): maximal runs of non-whitespace
characters, with runs of whitespace discarded.  Accumulator-style helper:
`acc` holds the current word reversed (empty accumulator = no open word). -/
def pyWordsAux (acc : List Char) : List Char → List (List Char)
  | [] => match acc with
    | [] => []
    | _ :: _ => [acc.reverse]
  | c :: cs =>
    if c.isWhitespace then
      match acc with
      | [] => pyWordsAux [] cs
      | _ :: _ => acc.reverse :: pyWordsAux [] cs
    else pyWordsAux (c :: acc) cs

/-- Python `s.split()`: whitespace-separated words of `s`. -/
def pyWords (s : List Char) : List (List Char) :=
  pyWordsAux [] s

/-- Python `' '.join(ws)`. -/
def spaceJoin (ws : List (List Char)) : List Char :=
  List.intercalate [' '] ws

/-- Python `s.split('\n')`. -/
def splitLines (s : List Char) : List (List Char) :=
  List.splitOn '\n' s

/-- Python `s.lower()` (ASCII case folding, as used on the identifiers and
plain words appearing in this code base). -/
def pyLower (s : List Char) : List Char :=
  s.map Char.toLower

/-! ### Facts about `pyWords` -/

/-- Every word produced by `pyWordsAux` is nonempty. -/
theorem pyWordsAux_words_ne_nil (s : List Char) :
    ∀ acc : List Char, ∀ w ∈ pyWordsAux acc s, w ≠ [] := by
  induction s with
  | nil =>
    intro acc w hw
    cases acc with
    | nil => simp [pyWordsAux] at hw
    | cons a as =>
      simp only [pyWordsAux, List.mem_singleton] at hw
      subst hw; simp
  | cons c cs ih =>
    intro acc w hw
    by_cases hws : c.isWhitespace
    · cases acc with
      | nil =>
        simp only [pyWordsAux, hws, if_true] at hw
        exact ih [] w hw
      | cons a as =>
        simp only [pyWordsAux, hws, if_true, List.mem_cons] at hw
        rcases hw with hw | hw
        · subst hw; simp
        · exact ih [] w hw
    · simp only [pyWordsAux, hws, if_false] at hw
      exact ih (c :: acc) w hw

/-- Characters of words produced by `pyWordsAux` are non-whitespace,
provided the accumulator holds only non-whitespace characters. -/
theorem pyWordsAux_no_ws (s : List Char) :
    ∀ acc : List Char, (∀ c ∈ acc, ¬ c.isWhitespace) →
      ∀ w ∈ pyWordsAux acc s, ∀ c ∈ w, ¬ c.isWhitespace := by
  induction s with
  | nil =>
    intro acc hacc w hw
    cases acc with
    | nil => simp [pyWordsAux] at hw
    | cons a as =>
      simp only [pyWordsAux, List.mem_singleton] at hw
      subst hw
      intro x hx
      exact hacc x (by simpa [or_comm] using hx)
  | cons c cs ih =>
    intro acc hacc w hw
    by_cases hws : c.isWhitespace
    · cases acc with
      | nil =>
        simp only [pyWordsAux, hws, if_true] at hw
        exact ih [] (by simp) w hw
      | cons a as =>
        simp only [pyWordsAux, hws, if_true, List.mem_cons] at hw
        rcases hw with hw | hw
        · subst hw
          intro x hx
          exact hacc x (by simpa [or_comm] using hx)
        · exact ih [] (by simp) w hw
    · simp only [pyWordsAux, hws, if_false] at hw
      refine ih (c :: acc) ?_ w hw
      intro x hx
      rcases List.mem_cons.mp hx with hx | hx
      · subst hx; exact hws
      · exact hacc x hx

theorem pyWords_words_ne_nil (s : List Char) : ∀ w ∈ pyWords s, w ≠ [] :=
  pyWordsAux_words_ne_nil s []

theorem pyWords_no_ws (s : List Char) :
    ∀ w ∈ pyWords s, ∀ c ∈ w, ¬ c.isWhitespace :=
  pyWordsAux_no_ws s [] (by simp)

/-- Running `pyWordsAux` over a block of non-whitespace characters just
extends the accumulator. -/
theorem pyWordsAux_append_word (w : List Char) :
    ∀ (acc rest : List Char), (∀ c ∈ w, ¬ c.isWhitespace) →
      pyWordsAux acc (w ++ rest) = pyWordsAux (w.reverse ++ acc) rest := by
  induction w with
  | nil => intro acc rest _; simp
  | cons c cs ih =>
    intro acc rest hw
    have hc : ¬ c.isWhitespace := hw c (by simp)
    show pyWordsAux acc (c :: (cs ++ rest)) = _
    simp only [pyWordsAux, hc, if_false]
    rw [ih (c :: acc) rest (fun x hx => hw x (by simp [hx]))]
    simp

/-- Splitting `' '.join ws` recovers `ws` when every word is nonempty and
whitespace-free. -/
theorem pyWords_spaceJoin (ws : List (List Char))
    (hne : ∀ w ∈ ws, w ≠ []) (hws : ∀ w ∈ ws, ∀ c ∈ w, ¬ c.isWhitespace) :
    pyWords (spaceJoin ws) = ws := by
  induction ws with
  | nil => simp [pyWords, spaceJoin, List.intercalate, pyWordsAux]
  | cons w rest ih =>
    cases rest with
    | nil =>
      have hwne := hne w (by simp)
      have hwws := hws w (by simp)
      have hjoin : spaceJoin [w] = w ++ [] := by
        simp [spaceJoin, List.intercalate, List.intersperse]
      rw [pyWords, hjoin, pyWordsAux_append_word w [] [] hwws]
      cases hrev : w.reverse with
      | nil => exact absurd (by simpa using hrev) hwne
      | cons a as =>
        simp only [List.append_nil, hrev, pyWordsAux]
        rw [← hrev]
        simp
    | cons w' rest' =>
      have hwne := hne w (by simp)
      have hwws := hws w (by simp)
      have hjoin : spaceJoin (w :: w' :: rest') =
          w ++ (' ' :: spaceJoin (w' :: rest')) := by
        simp [spaceJoin, List.intercalate, List.intersperse]
      rw [pyWords, hjoin, pyWordsAux_append_word w [] _ hwws]
      have hsp : (' ' : Char).isWhitespace := by decide
      cases hrev : w.reverse with
      | nil => exact absurd (by simpa using hrev) hwne
      | cons a as =>
        simp only [List.append_nil, hrev, pyWordsAux, hsp, if_true]
        have htail : pyWordsAux [] (spaceJoin (w' :: rest')) = w' :: rest' :=
          ih (fun x hx => hne x (by simp [hx])) (fun x hx => hws x (by simp [hx]))
        rw [htail, ← hrev]
        simp

/-! ## Data model of the chunking agent (`chunking_agent.py`) -/

/-- `ChunkingAgentConfig`: the fields relevant to chunk production and
validation (`chunk_size`, `chunk_overlap`, `min_chunk_size`,
`max_chunk_size`). -/
structure ChunkingAgentConfig where
  chunk_size : Nat := 1000
  chunk_overlap : Nat := 200
  min_chunk_size : Nat := 100
  max_chunk_size : Nat := 2000
deriving DecidableEq, Repr

/-- `ChunkedDocument`: the fields of a chunk that the chunking agent reads
or writes in the functions under study (`content`, `token_count`,
`chunk_index`, and the markdown `header` metadata). -/
structure ChunkedDocument where
  content : List Char
  token_count : Nat
  chunk_index : Nat := 0
  header : Option (List Char) := none
  header_level : Nat := 0
deriving DecidableEq, Repr

/-- The result object returned by `ChunkingAgent.process`
(`AgentResult`): success flag, optional error message, and the produced
chunks (the `data["chunks"]` payload on success). -/
structure AgentResult where
  success : Bool
  error_message : Option (List Char)
  chunks : List ChunkedDocument
deriving DecidableEq, Repr

/-- Fuel-indexed helper for `wordWindows` (structural recursion so that
the kernel can evaluate it; `fuel = ws.length` always suffices when
`n ≠ 0`). -/
def wordWindowsAux {α : Type} (n : Nat) : Nat → List α → List (List α)
  | _, [] => []
  | 0, _ :: _ => []
  | fuel + 1, w :: ws =>
    if n = 0 then []
    else (w :: ws).take n :: wordWindowsAux n fuel ((w :: ws).drop n)

/-- The word windows `words[i:i+chunk_size]` for `i in
range(0, len(words), chunk_size)` (the loop of `_split_large_chunk`).
When `n = 0` the Python loop would raise `ValueError`; the definition
returns `[]` in that unreachable case. -/
def wordWindows {α : Type} (n : Nat) (ws : List α) : List (List α) :=
  wordWindowsAux n ws.length ws

/-- `_split_large_chunk`: re-split an oversized chunk into word windows of
`chunk_size` words; each sub-chunk's `token_count` is
`len(sub_content.split())`. -/
def split_large_chunk (cfg : ChunkingAgentConfig) (c : ChunkedDocument) :
    List ChunkedDocument :=
  (wordWindows cfg.chunk_size (pyWords c.content)).map fun w =>
    { content := spaceJoin w
      token_count := (pyWords (spaceJoin w)).length
      chunk_index := c.chunk_index
      header := c.header
      header_level := c.header_level }

/-- `_validate_chunks`: drop chunks with fewer than `min_chunk_size`
words, re-split chunks with more than `max_chunk_size` words, keep the
rest. -/
def validate_chunks (cfg : ChunkingAgentConfig) :
    List ChunkedDocument → List ChunkedDocument
  | [] => []
  | c :: rest =>
    if (pyWords c.content).length < cfg.min_chunk_size then
      validate_chunks cfg rest
    else if cfg.max_chunk_size < (pyWords c.content).length then
      split_large_chunk cfg c ++ validate_chunks cfg rest
    else
      c :: validate_chunks cfg rest

/-- `ChunkingAgent.process`: the empty-content guard followed by chunking
and validation.  The content-type dispatch to the per-type chunkers
(`_chunk_code` / `_chunk_markdown` / `_chunk_text` / `_chunk_hybrid`) is
abstracted as the `chunker` argument; the guard and the validation pass
are as in the source. -/
def process (cfg : ChunkingAgentConfig)
    (chunker : List Char → List ChunkedDocument)
    (content : List Char) : AgentResult :=
  if content = [] then
    { success := false
      error_message := some "No content provided for chunking".toList
      chunks := [] }
  else
    { success := true
      error_message := none
      chunks := validate_chunks cfg (chunker content) }

/-! ### Facts about chunk validation -/

/-- Every element of a word window comes from the original word list. -/
theorem wordWindowsAux_mem_subset {α : Type} (n : Nat) :
    ∀ (fuel : Nat) (ws : List α), ∀ w ∈ wordWindowsAux n fuel ws, ∀ x ∈ w, x ∈ ws := by
  intro fuel
  induction fuel with
  | zero =>
    intro ws w hw
    cases ws with
    | nil => simp [wordWindowsAux] at hw
    | cons a as => simp [wordWindowsAux] at hw
  | succ fuel ih =>
    intro ws w hw
    cases ws with
    | nil => simp [wordWindowsAux] at hw
    | cons a as =>
      by_cases hn : n = 0
      · simp [wordWindowsAux, hn] at hw
      · rw [wordWindowsAux, if_neg hn] at hw
        rcases List.mem_cons.mp hw with hw | hw
        · subst hw; intro x hx; exact List.mem_of_mem_take hx
        · intro x hx
          exact List.mem_of_mem_drop (ih _ w hw x hx)

theorem wordWindows_mem_subset {α : Type} (n : Nat) (ws : List α) :
    ∀ w ∈ wordWindows n ws, ∀ x ∈ w, x ∈ ws :=
  wordWindowsAux_mem_subset n ws.length ws

/-- Every word window has at most `n` elements. -/
theorem wordWindowsAux_length_le {α : Type} (n : Nat) :
    ∀ (fuel : Nat) (ws : List α), ∀ w ∈ wordWindowsAux n fuel ws, w.length ≤ n := by
  intro fuel
  induction fuel with
  | zero =>
    intro ws w hw
    cases ws with
    | nil => simp [wordWindowsAux] at hw
    | cons a as => simp [wordWindowsAux] at hw
  | succ fuel ih =>
    intro ws w hw
    cases ws with
    | nil => simp [wordWindowsAux] at hw
    | cons a as =>
      by_cases hn : n = 0
      · simp [wordWindowsAux, hn] at hw
      · rw [wordWindowsAux, if_neg hn] at hw
        rcases List.mem_cons.mp hw with hw | hw
        · subst hw; simpa using List.length_take_le n (a :: as)
        · exact ih _ w hw

theorem wordWindows_length_le {α : Type} (n : Nat) (ws : List α) :
    ∀ w ∈ wordWindows n ws, w.length ≤ n :=
  wordWindowsAux_length_le n ws.length ws

/-- A sub-chunk produced by `_split_large_chunk` has
`token_count = ` its window length `≤ chunk_size`, and its recorded
`token_count` matches its content's word count. -/
theorem split_large_chunk_token_count (cfg : ChunkingAgentConfig)
    (c : ChunkedDocument) (hn : cfg.chunk_size ≠ 0) :
    ∀ c' ∈ split_large_chunk cfg c,
      c'.token_count = (pyWords c'.content).length ∧
      c'.token_count ≤ cfg.chunk_size := by
  intro c' hc'
  simp only [split_large_chunk, List.mem_map] at hc'
  obtain ⟨w, hw, rfl⟩ := hc'
  have hsub : ∀ x ∈ w, x ∈ pyWords c.content :=
    wordWindows_mem_subset _ _ w hw
  have hne : ∀ x ∈ w, x ≠ [] := fun x hx =>
    pyWords_words_ne_nil c.content x (hsub x hx)
  have hnws : ∀ x ∈ w, ∀ ch ∈ x, ¬ ch.isWhitespace := fun x hx =>
    pyWords_no_ws c.content x (hsub x hx)
  have hroundtrip : pyWords (spaceJoin w) = w := pyWords_spaceJoin w hne hnws
  constructor
  · rfl
  · show (pyWords (spaceJoin w)).length ≤ cfg.chunk_size
    rw [hroundtrip]
    exact wordWindows_length_le _ _ w hw

/-- The default `ChunkingAgentConfig` field values. -/
def defaultChunkingConfig : ChunkingAgentConfig := {}

/-- Helper for the amended size bound: validation preserves the
`token_count = word count` bookkeeping and enforces
`token_count ≤ max_chunk_size` whenever `0 < chunk_size ≤ max_chunk_size`. -/
theorem validate_chunks_upper_bound (cfg : ChunkingAgentConfig)
    (chunks : List ChunkedDocument)
    (hpos : 0 < cfg.chunk_size)
    (hle : cfg.chunk_size ≤ cfg.max_chunk_size)
    (hwf : ∀ c ∈ chunks, c.token_count = (pyWords c.content).length) :
    ∀ c ∈ validate_chunks cfg chunks,
      c.token_count = (pyWords c.content).length ∧
      c.token_count ≤ cfg.max_chunk_size := by
  induction chunks with
  | nil => intro c hc; simp [validate_chunks] at hc
  | cons c0 rest ih =>
    intro c hc
    have hrest : ∀ c ∈ rest, c.token_count = (pyWords c.content).length :=
      fun x hx => hwf x (by simp [hx])
    simp only [validate_chunks] at hc
    by_cases hmin : (pyWords c0.content).length < cfg.min_chunk_size
    · rw [if_pos hmin] at hc
      exact ih hrest c hc
    · rw [if_neg hmin] at hc
      by_cases hmax : cfg.max_chunk_size < (pyWords c0.content).length
      · rw [if_pos hmax] at hc
        rcases List.mem_append.mp hc with hc | hc
        · obtain ⟨heq, hle'⟩ :=
            split_large_chunk_token_count cfg c0 (Nat.pos_iff_ne_zero.mp hpos) c hc
          exact ⟨heq, le_trans hle' hle⟩
        · exact ih hrest c hc
      · rw [if_neg hmax] at hc
        rcases List.mem_cons.mp hc with hc | hc
        · subst hc
          refine ⟨hwf c (by simp), ?_⟩
          rw [hwf c (by simp)]
          exact le_of_not_lt hmax
        · exact ih hrest c hc

/-- Concrete configuration used in the size-invariant counterexample:
`chunk_size = 3`, `min_chunk_size = 2`, `max_chunk_size = 4`. -/
def smallConfig : ChunkingAgentConfig :=
  { chunk_size := 3, chunk_overlap := 0, min_chunk_size := 2, max_chunk_size := 4 }

/-- A seven-word chunk (over `max_chunk_size = 4`), whose re-split leaves
a trailing one-word sub-chunk. -/
def sevenWordChunk : ChunkedDocument :=
  { content := "a1 b2 c3 d4 e5 f6 g7".toList, token_count := 7 }

/-- C1: after the validation pass every returned chunk satisfies
`min_chunk_size ≤ token_count ≤ max_chunk_size` — REFUTED.  A chunk of 7
words with `chunk_size = 3`, `min_chunk_size = 2`, `max_chunk_size = 4`
is re-split into word windows of sizes 3, 3 and 1, and the trailing
1-word sub-chunk (below `min_chunk_size`) is returned without being
re-validated. -/
theorem validate_chunks_size_invariant_cex :
    ¬ (∀ c ∈ validate_chunks smallConfig [sevenWordChunk],
        smallConfig.min_chunk_size ≤ c.token_count ∧
        c.token_count ≤ smallConfig.max_chunk_size) := by
  decide

/-- C1 (amended): after validation every returned chunk has
`token_count ≤ max_chunk_size` (given `0 < chunk_size ≤ max_chunk_size`
and inputs whose `token_count` equals their word count, as all the
chunkers guarantee); the lower bound `min_chunk_size ≤ token_count` can
fail for the trailing sub-chunk of a re-split oversized chunk. -/
theorem validate_chunks_upper_bound_holds (cfg : ChunkingAgentConfig)
    (chunks : List ChunkedDocument)
    (hpos : 0 < cfg.chunk_size)
    (hle : cfg.chunk_size ≤ cfg.max_chunk_size)
    (hwf : ∀ c ∈ chunks, c.token_count = (pyWords c.content).length) :
    ∀ c ∈ validate_chunks cfg chunks, c.token_count ≤ cfg.max_chunk_size :=
  fun c hc => (validate_chunks_upper_bound cfg chunks hpos hle hwf c hc).2

/-- Witness for the amended C1 bound at a concrete input: the first
sub-chunk produced by validating `sevenWordChunk` respects the upper
bound. -/
theorem validate_chunks_upper_bound_holds_witness :
    ({ content := "a1 b2 c3".toList, token_count := 3 } : ChunkedDocument).token_count
      ≤ smallConfig.max_chunk_size :=
  validate_chunks_upper_bound_holds smallConfig [sevenWordChunk]
    (by decide) (by decide) (by decide)
    { content := "a1 b2 c3".toList, token_count := 3 } (by decide)

/-- C2: `process` on empty content returns a successful empty result —
REFUTED.  With the default configuration (and any chunker), empty content
yields `success = False`. -/
theorem process_empty_content_cex :
    ¬ ((process defaultChunkingConfig (fun _ => []) ([] : List Char)).success = true
        ∧ (process defaultChunkingConfig (fun _ => []) ([] : List Char)).chunks = []) := by
  decide

/-- C2 (amended): `process` on empty content returns a failed
`AgentResult` carrying the error message
`"No content provided for chunking"` and no chunks, for every
configuration and every chunker. -/
theorem process_empty_content (cfg : ChunkingAgentConfig)
    (chunker : List Char → List ChunkedDocument) :
    process cfg chunker [] =
      { success := false
        error_message := some "No content provided for chunking".toList
        chunks := [] } := by
  simp [process]

/-! ## A small regex interpreter

The patterns in `chunking_agent.py` use only literals, the classes
`\s` / `\w` / `[..]`, the wildcard `.`, the quantifiers `+` / `*` /
`{lo,hi}`, and `$`.  `matchHere` is a backtracking matcher anchored at
the start of the input (Python `re.match`); `research` tries every start
position (Python `re.search`). -/

/-- Single-character regex atoms. -/
inductive RAtom where
  | lit (c : Char)
  | cls (cs : List Char)
  | wild
  | wsC
  | wordC
deriving DecidableEq, Repr

/-- Does atom `a` match character `d`?  `\w` is `[a-zA-Z0-9_]`, `\s` is
whitespace, `.` is any character but newline. -/
def atomMatch : RAtom → Char → Bool
  | .lit c, d => c == d
  | .cls cs, d => cs.contains d
  | .wild, d => d ≠ '\n'
  | .wsC, d => d.isWhitespace
  | .wordC, d => d.isAlphanum || d == '_'

/-- Regex items: an atom, a starred / plussed / counted atom, or the `$`
anchor. -/
inductive RItem where
  | one (a : RAtom)
  | star (a : RAtom)
  | plus (a : RAtom)
  | rep (a : RAtom) (lo hi : Nat)
  | endAnchor
deriving DecidableEq, Repr

/-- Fuel-indexed backtracking matcher: does some prefix of `s` match
`items`?  Each step shrinks `items.length + s.length`, so fuel
`items.length + s.length + 1` always suffices. -/
def matchHereF : Nat → List RItem → List Char → Bool
  | 0, _, _ => false
  | fuel + 1, items, s =>
    match items, s with
    | [], _ => true
    | .endAnchor :: rs, s => (s.isEmpty || s == ['\n']) && matchHereF fuel rs s
    | .one _ :: _, [] => false
    | .one a :: rs, c :: cs => atomMatch a c && matchHereF fuel rs cs
    | .star a :: rs, s =>
      matchHereF fuel rs s ||
        (match s with
         | [] => false
         | c :: cs => atomMatch a c && matchHereF fuel (.star a :: rs) cs)
    | .plus _ :: _, [] => false
    | .plus a :: rs, c :: cs => atomMatch a c && matchHereF fuel (.star a :: rs) cs
    | .rep a lo hi :: rs, s =>
      if lo = 0 then
        matchHereF fuel rs s ||
          (match hi, s with
           | 0, _ => false
           | _, [] => false
           | hi' + 1, c :: cs => atomMatch a c && matchHereF fuel (.rep a 0 hi' :: rs) cs)
      else
        match s with
        | [] => false
        | c :: cs => atomMatch a c && matchHereF fuel (.rep a (lo - 1) (hi - 1) :: rs) cs

/-- Python `re.match(pattern, s)` as a Boolean: match anchored at the
start of `s`. -/
def reMatch (items : List RItem) (s : List Char) : Bool :=
  matchHereF (items.length + s.length + 1) items s

/-- Python `re.search(pattern, s)` as a Boolean: match at any start
position. -/
def research (items : List RItem) : List Char → Bool
  | [] => reMatch items []
  | c :: cs => reMatch items (c :: cs) || research items cs

/-- A sequence of literal characters. -/
def lits (s : String) : List RItem :=
  s.toList.map fun c => RItem.one (RAtom.lit c)

/-- `\s*` -/
def wsS : RItem := .star .wsC
/-- `\s+` -/
def wsP : RItem := .plus .wsC
/-- `\w+` -/
def wordP : RItem := .plus .wordC

/-! ## Language detection (`_detect_language`) -/

/-- The `"python"` entry of `language_patterns`. -/
def pythonPatterns : List (List RItem) :=
  [ lits "def" ++ [wsP, wordP, wsS, .one (.lit '(')]
  , lits "import" ++ [wsP, wordP]
  , lits "from" ++ [wsP, wordP, wsP] ++ lits "import"
  , lits "class" ++ [wsP, wordP, .star .wild, .one (.lit ':')]
  , lits "if" ++ [wsP] ++ lits "__name__" ++ [wsS] ++ lits "==" ++
      [wsS, .one (.cls ['\'', '"'])] ++ lits "__main__" ++ [.one (.cls ['\'', '"'])] ]

/-- The `"javascript"` entry of `language_patterns`. -/
def javascriptPatterns : List (List RItem) :=
  [ lits "function" ++ [wsP, wordP]
  , lits "const" ++ [wsP, wordP]
  , lits "let" ++ [wsP, wordP]
  , lits "var" ++ [wsP, wordP]
  , lits "console.log"
  , lits "export" ++ [wsP] ++ lits "default" ]

/-- The `"typescript"` entry of `language_patterns`. -/
def typescriptPatterns : List (List RItem) :=
  [ lits "interface" ++ [wsP, wordP]
  , lits "type" ++ [wsP, wordP]
  , [.one (.lit ':'), wsS, wordP, .one (.lit '['), .one (.lit ']')]
  , lits "Promise<" ++ [wordP, .one (.lit '>')] ]

/-- The `"java"` entry of `language_patterns`. -/
def javaPatterns : List (List RItem) :=
  [ lits "public" ++ [wsP] ++ lits "class"
  , lits "private" ++ [wsP, wordP]
  , lits "public" ++ [wsP] ++ lits "static" ++ [wsP] ++ lits "void" ++ [wsP] ++ lits "main"
  , lits "import" ++ [wsP] ++ lits "java." ]

/-- The `"cpp"` entry of `language_patterns`. -/
def cppPatterns : List (List RItem) :=
  [ lits "#include" ++ [wsS, .one (.lit '<')]
  , lits "std::"
  , lits "namespace" ++ [wsP, wordP]
  , lits "class" ++ [wsP, wordP, wsS, .one (.lit '\x7b')] ]

/-- The `"c"` entry of `language_patterns`. -/
def cPatterns : List (List RItem) :=
  [ lits "#include" ++ [wsS, .one (.lit '<')]
  , lits "int" ++ [wsP] ++ lits "main" ++ [wsS, .one (.lit '(')]
  , lits "printf" ++ [wsS, .one (.lit '(')]
  , lits "struct" ++ [wsP, wordP] ]

/-- The `"go"` entry of `language_patterns`. -/
def goPatterns : List (List RItem) :=
  [ lits "package" ++ [wsP, wordP]
  , lits "func" ++ [wsP, wordP]
  , lits "import" ++ [wsS, .one (.lit '(')]
  , lits "fmt." ]

/-- The `"rust"` entry of `language_patterns`. -/
def rustPatterns : List (List RItem) :=
  [ lits "fn" ++ [wsP, wordP]
  , lits "use" ++ [wsP, wordP]
  , lits "pub" ++ [wsP] ++ lits "fn"
  , lits "let" ++ [wsP] ++ lits "mut" ++ [wsP, wordP] ]

/-- `language_patterns` in declaration (= dict insertion = iteration)
order. -/
def language_patterns : List (String × List (List RItem)) :=
  [ ("python", pythonPatterns)
  , ("javascript", javascriptPatterns)
  , ("typescript", typescriptPatterns)
  , ("java", javaPatterns)
  , ("cpp", cppPatterns)
  , ("c", cPatterns)
  , ("go", goPatterns)
  , ("rust", rustPatterns) ]

/-- The nested loop of `_detect_language`: return the first language (in
declaration order) one of whose patterns matches. -/
def detectLangLoop (content : List Char) :
    List (String × List (List RItem)) → Option String
  | [] => none
  | (lang, pats) :: rest =>
    if pats.any fun p => research p content then some lang
    else detectLangLoop content rest

/-- `_detect_language`: `None` unless the content type is `"code"`,
otherwise the first language with a matching pattern. -/
def detect_language (content : List Char) (content_type : String) : Option String :=
  if content_type ≠ "code" then none
  else detectLangLoop content language_patterns

/-- The match count the claim attributes to `_detect_language` (stated
from the spec's words, for comparison): the number of patterns of a
language that match the content. -/
def claim_match_score (pats : List (List RItem)) (content : List Char) : Nat :=
  (pats.filter fun p => research p content).length

/-- Content used to probe language detection: one Python-pattern match
(`import os`) followed by three JavaScript-pattern matches. -/
def jsHeavyContent : List Char :=
  "import os\nfunction f\nconst a\nvar b".toList

/-- C3: `_detect_language` scores languages by match count, the highest
score winning and declaration order only breaking ties — REFUTED.  On
content with one Python pattern match and three JavaScript pattern
matches, the function returns `"python"`: it returns the first declared
language with any match and never counts. -/
theorem detect_language_score_cex :
    claim_match_score pythonPatterns jsHeavyContent <
        claim_match_score javascriptPatterns jsHeavyContent ∧
      detect_language jsHeavyContent "code" ≠ some "javascript" ∧
      detect_language jsHeavyContent "code" = some "python" := by
  refine ⟨by decide, by decide, by decide⟩

/-- C3 (amended): `_detect_language` on code content returns the first
language in declaration order having at least one matching pattern
(`None` when no pattern of any language matches); match counts beyond
the first match play no role. -/
theorem detect_language_first_match (content : List Char) :
    detect_language content "code" =
      (language_patterns.find? fun lp =>
        lp.2.any fun p => research p content).map Prod.fst := by
  show detectLangLoop content language_patterns = _
  induction language_patterns with
  | nil => simp [detectLangLoop]
  | cons lp rest ih =>
    by_cases h : lp.2.any fun p => research p content
    · simp [detectLangLoop, List.find?, h]
    · simp only [detectLangLoop, List.find?] at *
      rw [if_neg (by simpa using h)]
      simp only [Bool.of_not_eq_true h]
      exact ih

/-! ## Markdown chunking (`_chunk_markdown`) -/

/-- The header pattern `^(#{1,6})\s+(.+)$` of `_chunk_markdown`, applied
with `re.match`. -/
def headerPattern : List RItem :=
  [.rep (.lit '#') 1 6, wsP, .plus .wild, .endAnchor]

/-- `header_level` as computed by the source:
`len(current_header.split('#')[0])` when a header exists, else 0. -/
def header_level_of : Option (List Char) → Nat
  | some h => (h.takeWhile fun c => c ≠ '#').length
  | none => 0

/-- Build one `markdown_section` chunk from the accumulated lines. -/
def mkMarkdownChunk (cur : List (List Char)) (header : Option (List Char))
    (idx : Nat) : ChunkedDocument :=
  let c := List.intercalate ['\n'] cur
  { content := c
    token_count := (pyWords c).length
    chunk_index := idx
    header := header
    header_level := header_level_of header }

/-- The line loop of `_chunk_markdown`: start a new section at each line
matching the header pattern, flushing the previous section (if any). -/
def chunkMarkdownLoop :
    List (List Char) → List (List Char) → Option (List Char) → Nat →
      List ChunkedDocument
  | [], cur, curHeader, idx =>
    match cur with
    | [] => []
    | _ :: _ => [mkMarkdownChunk cur curHeader idx]
  | line :: rest, cur, curHeader, idx =>
    if reMatch headerPattern line then
      match cur with
      | [] => chunkMarkdownLoop rest [line] (some line) idx
      | _ :: _ =>
        mkMarkdownChunk cur curHeader idx ::
          chunkMarkdownLoop rest [line] (some line) (idx + 1)
    else chunkMarkdownLoop rest (cur ++ [line]) curHeader idx

/-- `_chunk_markdown`: split content into header-delimited sections. -/
def chunk_markdown (content : List Char) : List ChunkedDocument :=
  chunkMarkdownLoop (splitLines content) [] none 0

/-- The scenario input of the C5 claim. -/
def mdScenarioInput : List Char :=
  "# Title\nBody text.\n\n## Sub\nMore text.".toList

/-- C5: markdown chunks carry a header level equal to the number of `#`
characters of their heading — REFUTED.  On the scenario input the second
chunk has header `"## Sub"` but `header_level = 0`, because the source
computes `len(header.split('#')[0])`, the length of the text before the
first `#`, which is 0 for every matched heading. -/
theorem chunk_markdown_header_level_cex :
    ¬ ((chunk_markdown mdScenarioInput).length = 2 ∧
        ((chunk_markdown mdScenarioInput).map fun c => c.header_level) = [1, 2]) := by
  decide

/-- C5 (amended): on the scenario input, `_chunk_markdown` yields exactly
2 chunks tagged with headers `"# Title"` and `"## Sub"` in order, but
both with `header_level = 0` (the source takes the length of the part of
the heading before the first `#`, which is always empty). -/
theorem chunk_markdown_scenario :
    ((chunk_markdown mdScenarioInput).map fun c => (c.header, c.header_level)) =
      [(some "# Title".toList, 0), (some "## Sub".toList, 0)] := by
  decide

/-! ## Python `round(x, 4)`

Python's `round` on floats rounds half to even.  In the exact-arithmetic
embedding: `pyRound x` is the half-to-even nearest integer, and
`pyRound4 x = pyRound (x * 10^4) / 10^4`. -/

/-- Round half to even, to the nearest integer. -/
def pyRound {α : Type} [LinearOrderedField α] [FloorRing α] (x : α) : ℤ :=
  if Int.fract x < 1 / 2 then ⌊x⌋
  else if 1 / 2 < Int.fract x then ⌊x⌋ + 1
  else if ⌊x⌋ % 2 = 0 then ⌊x⌋ else ⌊x⌋ + 1

/-- Python `round(x, 4)` in exact arithmetic. -/
def pyRound4 {α : Type} [LinearOrderedField α] [FloorRing α] (x : α) : α :=
  (pyRound (x * 10000) : α) / 10000

theorem floor_le_pyRound {α : Type} [LinearOrderedField α] [FloorRing α]
    (x : α) : ⌊x⌋ ≤ pyRound x := by
  unfold pyRound
  split
  · exact le_refl _
  · split
    · exact Int.le_add_one (le_refl _)
    · split
      · exact le_refl _
      · exact Int.le_add_one (le_refl _)

theorem pyRound_le_floor_add_one {α : Type} [LinearOrderedField α] [FloorRing α]
    (x : α) : pyRound x ≤ ⌊x⌋ + 1 := by
  unfold pyRound
  split
  · exact Int.le_add_one (le_refl _)
  · split
    · exact le_refl _
    · split
      · exact Int.le_add_one (le_refl _)
      · exact le_refl _

theorem pyRound_intCast {α : Type} [LinearOrderedField α] [FloorRing α]
    (z : ℤ) : pyRound (z : α) = z := by
  unfold pyRound
  rw [Int.fract_intCast, Int.floor_intCast]
  norm_num

theorem pyRound_nonneg {α : Type} [LinearOrderedField α] [FloorRing α]
    {x : α} (hx : 0 ≤ x) : 0 ≤ pyRound x :=
  le_trans (Int.floor_nonneg.mpr hx) (floor_le_pyRound x)

/-- If `x ≤ n` for an integer `n` then `pyRound x ≤ n`. -/
theorem pyRound_le_of_le {α : Type} [LinearOrderedField α] [FloorRing α]
    {x : α} {n : ℤ} (hx : x ≤ (n : α)) : pyRound x ≤ n := by
  have hfloor : ⌊x⌋ ≤ n := by
    rw [← Int.floor_intCast (α := α) n]
    exact Int.floor_le_floor hx
  rcases lt_or_eq_of_le hfloor with hlt | heq
  · calc pyRound x ≤ ⌊x⌋ + 1 := pyRound_le_floor_add_one x
      _ ≤ n := by omega
  · have hfr : Int.fract x = 0 := by
      have h1 : (n : α) ≤ x := by
        rw [← heq]; exact Int.floor_le x
      have : x = (n : α) := le_antisymm hx h1
      rw [this, Int.fract_intCast]
    unfold pyRound
    rw [hfr]
    norm_num
    omega

/-- If `(c : ℤ) ≤ x * 10000` then `c / 10000 ≤ pyRound4 x`. -/
theorem pyRound4_ge {α : Type} [LinearOrderedField α] [FloorRing α]
    {x : α} {c : ℤ} (h : (c : α) ≤ x * 10000) :
    (c : α) / 10000 ≤ pyRound4 x := by
  unfold pyRound4
  have h1 : c ≤ ⌊x * 10000⌋ := Int.le_floor.mpr h
  have h2 : c ≤ pyRound (x * 10000) := le_trans h1 (floor_le_pyRound _)
  have : (c : α) ≤ (pyRound (x * 10000) : α) := by exact_mod_cast h2
  gcongr

/-- `pyRound4` maps `[0, 1]` into `[0, 1]`. -/
theorem pyRound4_mem_unit {α : Type} [LinearOrderedField α] [FloorRing α]
    {x : α} (h0 : 0 ≤ x) (h1 : x ≤ 1) : 0 ≤ pyRound4 x ∧ pyRound4 x ≤ 1 := by
  have hy0 : (0 : α) ≤ x * 10000 := by positivity
  have hy1 : x * 10000 ≤ ((10000 : ℤ) : α) := by
    push_cast
    nlinarith
  constructor
  · unfold pyRound4
    have := pyRound_nonneg hy0
    have hcast : (0 : α) ≤ (pyRound (x * 10000) : α) := by exact_mod_cast this
    positivity
  · unfold pyRound4
    have := pyRound_le_of_le hy1
    have hcast : (pyRound (x * 10000) : α) ≤ (10000 : α) := by exact_mod_cast this
    rw [div_le_one (by norm_num : (0:α) < 10000)]
    exact hcast

/-- `pyRound4` of an integer multiple of `1/10^4` is itself; in
particular `pyRound4 1 = 1` and `pyRound4 0 = 0`. -/
theorem pyRound4_intCast {α : Type} [LinearOrderedField α] [FloorRing α]
    (z : ℤ) : pyRound4 ((z : α) / 10000) = (z : α) / 10000 := by
  unfold pyRound4
  rw [div_mul_cancel₀ _ (by norm_num : (10000 : α) ≠ 0), pyRound_intCast]

theorem pyRound4_one {α : Type} [LinearOrderedField α] [FloorRing α] :
    pyRound4 (1 : α) = 1 := by
  have := pyRound4_intCast (α := α) 10000
  norm_num at this
  convert this using 2 <;> norm_num

theorem pyRound4_zero {α : Type} [LinearOrderedField α] [FloorRing α] :
    pyRound4 (0 : α) = 0 := by
  have := pyRound4_intCast (α := α) 0
  norm_num at this
  exact this

/-- Every `pyRound4` value is an integer multiple of `1/10^4` (the
"rounded to 4 decimal places" shape). -/
theorem pyRound4_shape {α : Type} [LinearOrderedField α] [FloorRing α]
    (x : α) : ∃ z : ℤ, pyRound4 x = (z : α) / 10000 :=
  ⟨pyRound (x * 10000), rfl⟩

/-! ## Retrieval metrics (`evaluation_utils.py`)

Documents enter `calculate_retrieval_metrics` only through `doc.get("id")`;
a document is therefore modelled by its id, of an arbitrary type `α` with
decidable equality.  Python sets of ids become `Finset α`. -/

/-- The five-float dict returned by `calculate_retrieval_metrics`.  The
values of `precision`, `recall`, `f1_score` and `mrr` are rational, so
they are embedded in `ℚ`; `ndcg` involves `np.log2` and lives in `ℝ`. -/
structure RetrievalMetrics where
  precision : ℚ
  recall' : ℚ
  f1_score : ℚ
  mrr : ℚ
  ndcg : ℝ

/-- The loop of `_calculate_mrr`, with `i` the running `enumerate`
index: `1 / (i + 1)` at the first document whose id is relevant, `0.0`
when none is. -/
def mrrLoop {α : Type} [DecidableEq α] (rel : Finset α) :
    List α → Nat → ℚ
  | [], _ => 0
  | d :: ds, i => if d ∈ rel then 1 / (i + 1) else mrrLoop rel ds (i + 1)

/-- `_calculate_mrr`. -/
def calculate_mrr {α : Type} [DecidableEq α] (docs : List α)
    (rel : Finset α) : ℚ :=
  mrrLoop rel docs 0

/-- The DCG loop of `_calculate_ndcg`: relevance 1.0 or 0.0, discounted
by `np.log2(i + 2)`. -/
noncomputable def dcgLoop {α : Type} [DecidableEq α] (rel : Finset α) :
    List α → Nat → ℝ
  | [], _ => 0
  | d :: ds, i =>
    (if d ∈ rel then (1 : ℝ) else 0) / Real.logb 2 (i + 2) + dcgLoop rel ds (i + 1)

/-- The IDCG loop of `_calculate_ndcg`: `1 / log2(i + 2)` summed for
`i in range(num_relevant)`. -/
noncomputable def idcgSum (n : Nat) : ℝ :=
  ∑ i ∈ Finset.range n, 1 / Real.logb 2 (i + 2)

/-- `_calculate_ndcg`. -/
noncomputable def calculate_ndcg {α : Type} [DecidableEq α] (docs : List α)
    (rel : Finset α) (k : Nat) : ℝ :=
  let dcg := dcgLoop rel (docs.take k) 0
  let idcg := idcgSum (min rel.card k)
  if 0 < idcg then dcg / idcg else 0

/-- `calculate_retrieval_metrics`: early all-zero return on an empty
retrieved list, otherwise precision/recall/F1 at `k`, MRR over the full
list, NDCG at `k`, each rounded to 4 decimal places. -/
noncomputable def calculate_retrieval_metrics {α : Type} [DecidableEq α]
    (retrieved_docs relevant_docs : List α) (k : Nat) : RetrievalMetrics :=
  if retrieved_docs = [] then ⟨0, 0, 0, 0, 0⟩
  else
    let relevant_ids : Finset α := relevant_docs.toFinset
    let retrieved_ids : List α := retrieved_docs.take k
    let relevant_retrieved : Nat := (retrieved_ids.toFinset ∩ relevant_ids).card
    let precision : ℚ :=
      if retrieved_ids ≠ [] then relevant_retrieved / (retrieved_ids.length : ℚ) else 0
    let recall' : ℚ :=
      if relevant_ids.card ≠ 0 then relevant_retrieved / (relevant_ids.card : ℚ) else 0
    let f1_score : ℚ :=
      if 0 < precision + recall' then 2 * (precision * recall') / (precision + recall') else 0
    let mrr : ℚ := calculate_mrr retrieved_docs relevant_ids
    let ndcg : ℝ := calculate_ndcg retrieved_docs relevant_ids k
    ⟨pyRound4 precision, pyRound4 recall', pyRound4 f1_score, pyRound4 mrr, pyRound4 ndcg⟩

/-! ### The discount weights -/

/-- `1 ≤ log2 x` for `2 ≤ x`. -/
theorem one_le_logb_two {x : ℝ} (hx : 2 ≤ x) : 1 ≤ Real.logb 2 x := by
  have h := Real.logb_le_logb_of_le (by norm_num : (1:ℝ) < 2)
    (by norm_num : (0:ℝ) < 2) hx
  rwa [Real.logb_self_eq_one (by norm_num)] at h

theorem logb_discount_pos (i : Nat) : 0 < Real.logb 2 ((i : ℝ) + 2) := by
  have : (1 : ℝ) ≤ Real.logb 2 ((i : ℝ) + 2) := by
    apply one_le_logb_two
    have : (0 : ℝ) ≤ (i : ℝ) := Nat.cast_nonneg i
    linarith
  linarith

/-- The discount weight at rank `i`. -/
noncomputable def discount (i : Nat) : ℝ :=
  1 / Real.logb 2 ((i : ℝ) + 2)

theorem discount_pos (i : Nat) : 0 < discount i :=
  div_pos one_pos (logb_discount_pos i)

theorem discount_antitone {i j : Nat} (hij : i ≤ j) : discount j ≤ discount i := by
  unfold discount
  apply one_div_le_one_div_of_le (logb_discount_pos i)
  apply Real.logb_le_logb_of_le (by norm_num : (1:ℝ) < 2)
  · have : (0 : ℝ) ≤ (i : ℝ) := Nat.cast_nonneg i
    linarith
  · have : (i : ℝ) ≤ (j : ℝ) := Nat.cast_le.mpr hij
    linarith

theorem idcgSum_eq_sum_discount (n : Nat) :
    idcgSum n = ∑ i ∈ Finset.range n, discount i := by
  unfold idcgSum discount
  exact Finset.sum_congr rfl fun i _ => by norm_num

theorem idcgSum_nonneg (n : Nat) : 0 ≤ idcgSum n := by
  rw [idcgSum_eq_sum_discount]
  exact Finset.sum_nonneg fun i _ => le_of_lt (discount_pos i)

theorem idcgSum_pos {n : Nat} (hn : 0 < n) : 0 < idcgSum n := by
  rw [idcgSum_eq_sum_discount]
  exact Finset.sum_pos (fun i _ => discount_pos i)
    (by simpa [Finset.nonempty_range_iff] using Nat.pos_iff_ne_zero.mp hn)

theorem idcgSum_mono {m n : Nat} (h : m ≤ n) : idcgSum m ≤ idcgSum n := by
  rw [idcgSum_eq_sum_discount, idcgSum_eq_sum_discount]
  apply Finset.sum_le_sum_of_subset_of_nonneg
  · exact Finset.range_subset.mpr h
  · exact fun i _ _ => le_of_lt (discount_pos i)

/-! ### Characterization of the returned fields -/

theorem crm_empty {α : Type} [DecidableEq α] (rel : List α) (k : Nat) :
    calculate_retrieval_metrics ([] : List α) rel k = ⟨0, 0, 0, 0, 0⟩ := by
  unfold calculate_retrieval_metrics
  rw [if_pos rfl]

theorem crm_precision_eq {α : Type} [DecidableEq α]
    {docs : List α} (rel : List α) (k : Nat) (h : docs ≠ []) :
    (calculate_retrieval_metrics docs rel k).precision =
      pyRound4 (if docs.take k ≠ [] then
        (((docs.take k).toFinset ∩ rel.toFinset).card : ℚ) / ((docs.take k).length : ℚ)
      else 0) := by
  unfold calculate_retrieval_metrics
  rw [if_neg h]

theorem crm_recall_eq {α : Type} [DecidableEq α]
    {docs : List α} (rel : List α) (k : Nat) (h : docs ≠ []) :
    (calculate_retrieval_metrics docs rel k).recall' =
      pyRound4 (if rel.toFinset.card ≠ 0 then
        (((docs.take k).toFinset ∩ rel.toFinset).card : ℚ) / (rel.toFinset.card : ℚ)
      else 0) := by
  unfold calculate_retrieval_metrics
  rw [if_neg h]

theorem crm_f1_eq {α : Type} [DecidableEq α]
    {docs : List α} (rel : List α) (k : Nat) (h : docs ≠ []) :
    (calculate_retrieval_metrics docs rel k).f1_score =
      pyRound4 (
        let p : ℚ := if docs.take k ≠ [] then
          (((docs.take k).toFinset ∩ rel.toFinset).card : ℚ) / ((docs.take k).length : ℚ)
          else 0
        let r : ℚ := if rel.toFinset.card ≠ 0 then
          (((docs.take k).toFinset ∩ rel.toFinset).card : ℚ) / (rel.toFinset.card : ℚ)
          else 0
        if 0 < p + r then 2 * (p * r) / (p + r) else 0) := by
  unfold calculate_retrieval_metrics
  rw [if_neg h]

theorem crm_mrr_eq {α : Type} [DecidableEq α]
    {docs : List α} (rel : List α) (k : Nat) (h : docs ≠ []) :
    (calculate_retrieval_metrics docs rel k).mrr =
      pyRound4 (calculate_mrr docs rel.toFinset) := by
  unfold calculate_retrieval_metrics
  rw [if_neg h]

theorem crm_ndcg_eq {α : Type} [DecidableEq α]
    {docs : List α} (rel : List α) (k : Nat) (h : docs ≠ []) :
    (calculate_retrieval_metrics docs rel k).ndcg =
      pyRound4 (calculate_ndcg docs rel.toFinset k) := by
  unfold calculate_retrieval_metrics
  rw [if_neg h]

/-! ### Bounds on the raw metric values -/

theorem mrrLoop_mem_unit {α : Type} [DecidableEq α] (rel : Finset α) :
    ∀ (docs : List α) (i : Nat), 0 ≤ mrrLoop rel docs i ∧ mrrLoop rel docs i ≤ 1 := by
  intro docs
  induction docs with
  | nil => intro i; simp [mrrLoop]
  | cons d ds ih =>
    intro i
    by_cases hd : d ∈ rel
    · simp only [mrrLoop, if_pos hd]
      constructor
      · positivity
      · rw [div_le_one (by positivity)]
        have : (0 : ℚ) ≤ (i : ℚ) := by positivity
        linarith
    · simp only [mrrLoop, if_neg hd]
      exact ih (i + 1)

/-- The DCG accumulated from start index `i` is bounded by the sum of the
first `countP (· ∈ rel)` discount weights starting at `i`. -/
theorem dcgLoop_le_count_sum {α : Type} [DecidableEq α] (rel : Finset α) :
    ∀ (l : List α) (i : Nat),
      dcgLoop rel l i ≤
        ∑ j ∈ Finset.range (l.countP fun d => decide (d ∈ rel)), discount (i + j) := by
  intro l
  induction l with
  | nil => intro i; simp [dcgLoop]
  | cons d ds ih =>
    intro i
    by_cases hd : d ∈ rel
    · have hcount : ((d :: ds).countP fun x => decide (x ∈ rel)) =
          (ds.countP fun x => decide (x ∈ rel)) + 1 := by
        simp [List.countP_cons, hd]
      rw [hcount]
      have hsum : ∑ j ∈ Finset.range ((ds.countP fun x => decide (x ∈ rel)) + 1),
          discount (i + j) =
          discount (i + 0) + ∑ j ∈ Finset.range (ds.countP fun x => decide (x ∈ rel)),
            discount (i + (j + 1)) := by
        rw [Finset.sum_range_succ']
        ring
      rw [hsum]
      simp only [dcgLoop, if_pos hd]
      have h1 : (1 : ℝ) / Real.logb 2 ((i : ℝ) + 2) = discount (i + 0) := by
        simp [discount]
      have h2 : dcgLoop rel ds (i + 1) ≤
          ∑ j ∈ Finset.range (ds.countP fun x => decide (x ∈ rel)),
            discount (i + (j + 1)) := by
        have := ih (i + 1)
        refine this.trans_eq (Finset.sum_congr rfl fun j _ => ?_)
        congr 1
        omega
      rw [h1] at *
      linarith
    · have hcount : ((d :: ds).countP fun x => decide (x ∈ rel)) =
          ds.countP fun x => decide (x ∈ rel) := by
        simp [List.countP_cons, hd]
      rw [hcount]
      simp only [dcgLoop, if_neg hd]
      have h2 : dcgLoop rel ds (i + 1) ≤
          ∑ j ∈ Finset.range (ds.countP fun x => decide (x ∈ rel)), discount (i + j) := by
        refine (ih (i + 1)).trans ?_
        apply Finset.sum_le_sum
        intro j _
        exact discount_antitone (by omega)
      simpa using h2

theorem dcgLoop_nonneg {α : Type} [DecidableEq α] (rel : Finset α) :
    ∀ (l : List α) (i : Nat), 0 ≤ dcgLoop rel l i := by
  intro l
  induction l with
  | nil => intro i; simp [dcgLoop]
  | cons d ds ih =>
    intro i
    simp only [dcgLoop]
    have hpos := logb_discount_pos i
    have hterm : (0:ℝ) ≤ (if d ∈ rel then (1:ℝ) else 0) / Real.logb 2 ((i:ℝ) + 2) := by
      apply div_nonneg _ (le_of_lt hpos)
      split <;> norm_num
    linarith [ih (i + 1)]

/-- Count of relevant elements of a duplicate-free list is at most the
number of relevant ids. -/
theorem countP_mem_le_card {α : Type} [DecidableEq α] (rel : Finset α)
    {l : List α} (hl : l.Nodup) :
    (l.countP fun d => decide (d ∈ rel)) ≤ rel.card := by
  rw [List.countP_eq_length_filter]
  have hnd : (l.filter fun d => decide (d ∈ rel)).Nodup := List.Nodup.filter _ hl
  have hcard : (l.filter fun d => decide (d ∈ rel)).toFinset.card =
      (l.filter fun d => decide (d ∈ rel)).length := List.toFinset_card_of_nodup hnd
  rw [← hcard]
  apply Finset.card_le_card
  intro x hx
  rw [List.mem_toFinset, List.mem_filter] at hx
  exact of_decide_eq_true hx.2

/-- With duplicate-free retrieved ids, `dcg ≤ idcg`, hence
`0 ≤ ndcg ≤ 1`. -/
theorem calculate_ndcg_mem_unit {α : Type} [DecidableEq α]
    (docs : List α) (rel : Finset α) (k : Nat) (hnd : docs.Nodup) :
    0 ≤ calculate_ndcg docs rel k ∧ calculate_ndcg docs rel k ≤ 1 := by
  unfold calculate_ndcg
  by_cases hpos : 0 < idcgSum (min rel.card k)
  · rw [if_pos hpos]
    have hcnt : ((docs.take k).countP fun d => decide (d ∈ rel)) ≤ min rel.card k := by
      apply le_min
      · exact countP_mem_le_card rel (hnd.sublist (List.take_sublist k docs))
      · calc ((docs.take k).countP fun d => decide (d ∈ rel))
            ≤ (docs.take k).length := List.countP_le_length _
          _ ≤ k := List.length_take_le k docs
    have hdcg : dcgLoop rel (docs.take k) 0 ≤ idcgSum (min rel.card k) := by
      calc dcgLoop rel (docs.take k) 0
          ≤ ∑ j ∈ Finset.range ((docs.take k).countP fun d => decide (d ∈ rel)),
              discount (0 + j) := dcgLoop_le_count_sum rel _ 0
        _ = ∑ j ∈ Finset.range ((docs.take k).countP fun d => decide (d ∈ rel)),
              discount j := Finset.sum_congr rfl fun j _ => by rw [Nat.zero_add]
        _ ≤ ∑ j ∈ Finset.range (min rel.card k), discount j := by
              apply Finset.sum_le_sum_of_subset_of_nonneg
              · exact Finset.range_subset.mpr hcnt
              · exact fun i _ _ => le_of_lt (discount_pos i)
        _ = idcgSum (min rel.card k) := (idcgSum_eq_sum_discount _).symm
    constructor
    · exact div_nonneg (dcgLoop_nonneg rel _ 0) (le_of_lt hpos)
    · rw [div_le_one hpos]
      exact hdcg
  · rw [if_neg hpos]
    norm_num

/-- A quotient of naturals with numerator at most denominator is in
`[0, 1]`. -/
theorem nat_ratio_mem_unit {a b : Nat} (hab : a ≤ b) :
    0 ≤ (a : ℚ) / (b : ℚ) ∧ (a : ℚ) / (b : ℚ) ≤ 1 := by
  rcases Nat.eq_zero_or_pos b with hb | hb
  · subst hb; simp
  · constructor
    · positivity
    · rw [div_le_one (by exact_mod_cast hb)]
      exact_mod_cast hab

/-- The F1 combination of two values in `[0, 1]` is in `[0, 1]`. -/
theorem f1_combination_mem_unit {p r : ℚ}
    (hp0 : 0 ≤ p) (hp1 : p ≤ 1) (hr0 : 0 ≤ r) (hr1 : r ≤ 1) :
    0 ≤ (if 0 < p + r then 2 * (p * r) / (p + r) else 0) ∧
    (if 0 < p + r then 2 * (p * r) / (p + r) else 0) ≤ 1 := by
  by_cases hs : 0 < p + r
  · rw [if_pos hs]
    constructor
    · positivity
    · rw [div_le_one hs]
      nlinarith [mul_nonneg (sub_nonneg.mpr hp1) hr0,
        mul_nonneg (sub_nonneg.mpr hr1) hp0]
  · rw [if_neg hs]
    norm_num

/-- Raw precision value is in `[0, 1]`. -/
theorem precision_raw_mem_unit {α : Type} [DecidableEq α]
    (docs rel : List α) (k : Nat) :
    0 ≤ (if docs.take k ≠ [] then
        (((docs.take k).toFinset ∩ rel.toFinset).card : ℚ) / ((docs.take k).length : ℚ)
      else 0) ∧
    (if docs.take k ≠ [] then
        (((docs.take k).toFinset ∩ rel.toFinset).card : ℚ) / ((docs.take k).length : ℚ)
      else 0) ≤ 1 := by
  by_cases h : docs.take k ≠ []
  · rw [if_pos h]
    apply nat_ratio_mem_unit
    calc ((docs.take k).toFinset ∩ rel.toFinset).card
        ≤ (docs.take k).toFinset.card :=
          Finset.card_le_card Finset.inter_subset_left
      _ ≤ (docs.take k).length := (docs.take k).toFinset_card_le
  · rw [if_neg h]; norm_num

/-- Raw recall value is in `[0, 1]`. -/
theorem recall_raw_mem_unit {α : Type} [DecidableEq α]
    (docs rel : List α) (k : Nat) :
    0 ≤ (if rel.toFinset.card ≠ 0 then
        (((docs.take k).toFinset ∩ rel.toFinset).card : ℚ) / (rel.toFinset.card : ℚ)
      else 0) ∧
    (if rel.toFinset.card ≠ 0 then
        (((docs.take k).toFinset ∩ rel.toFinset).card : ℚ) / (rel.toFinset.card : ℚ)
      else 0) ≤ 1 := by
  by_cases h : rel.toFinset.card ≠ 0
  · rw [if_pos h]
    apply nat_ratio_mem_unit
    exact Finset.card_le_card Finset.inter_subset_right
  · rw [if_neg h]; norm_num

/-- C4 (amended): every metric returned by `calculate_retrieval_metrics`
is in `[0, 1]` and is an integer multiple of `1/10^4` ("rounded to 4
decimal places"), PROVIDED the retrieved ids are pairwise distinct; with
duplicated retrieved ids the `ndcg` value can exceed 1 (see the
counterexample). -/
theorem retrieval_metrics_ranges {α : Type} [DecidableEq α]
    (docs rel : List α) (k : Nat) (hnd : docs.Nodup) :
    (0 ≤ (calculate_retrieval_metrics docs rel k).precision ∧
       (calculate_retrieval_metrics docs rel k).precision ≤ 1 ∧
       ∃ z : ℤ, (calculate_retrieval_metrics docs rel k).precision = (z : ℚ) / 10000) ∧
    (0 ≤ (calculate_retrieval_metrics docs rel k).recall' ∧
       (calculate_retrieval_metrics docs rel k).recall' ≤ 1 ∧
       ∃ z : ℤ, (calculate_retrieval_metrics docs rel k).recall' = (z : ℚ) / 10000) ∧
    (0 ≤ (calculate_retrieval_metrics docs rel k).f1_score ∧
       (calculate_retrieval_metrics docs rel k).f1_score ≤ 1 ∧
       ∃ z : ℤ, (calculate_retrieval_metrics docs rel k).f1_score = (z : ℚ) / 10000) ∧
    (0 ≤ (calculate_retrieval_metrics docs rel k).mrr ∧
       (calculate_retrieval_metrics docs rel k).mrr ≤ 1 ∧
       ∃ z : ℤ, (calculate_retrieval_metrics docs rel k).mrr = (z : ℚ) / 10000) ∧
    (0 ≤ (calculate_retrieval_metrics docs rel k).ndcg ∧
       (calculate_retrieval_metrics docs rel k).ndcg ≤ 1 ∧
       ∃ z : ℤ, (calculate_retrieval_metrics docs rel k).ndcg = (z : ℝ) / 10000) := by
  by_cases hempty : docs = []
  · subst hempty
    rw [crm_empty]
    refine ⟨⟨le_refl 0, by norm_num, 0, by norm_num⟩,
      ⟨le_refl 0, by norm_num, 0, by norm_num⟩,
      ⟨le_refl 0, by norm_num, 0, by norm_num⟩,
      ⟨le_refl 0, by norm_num, 0, by norm_num⟩,
      ⟨le_refl 0, by norm_num, 0, by norm_num⟩⟩
  · refine ⟨?_, ?_, ?_, ?_, ?_⟩
    · rw [crm_precision_eq rel k hempty]
      obtain ⟨h0, h1⟩ := precision_raw_mem_unit docs rel k
      obtain ⟨g0, g1⟩ := pyRound4_mem_unit h0 h1
      exact ⟨g0, g1, pyRound4_shape _⟩
    · rw [crm_recall_eq rel k hempty]
      obtain ⟨h0, h1⟩ := recall_raw_mem_unit docs rel k
      obtain ⟨g0, g1⟩ := pyRound4_mem_unit h0 h1
      exact ⟨g0, g1, pyRound4_shape _⟩
    · rw [crm_f1_eq rel k hempty]
      obtain ⟨hp0, hp1⟩ := precision_raw_mem_unit docs rel k
      obtain ⟨hr0, hr1⟩ := recall_raw_mem_unit docs rel k
      obtain ⟨h0, h1⟩ := f1_combination_mem_unit hp0 hp1 hr0 hr1
      obtain ⟨g0, g1⟩ := pyRound4_mem_unit h0 h1
      exact ⟨g0, g1, pyRound4_shape _⟩
    · rw [crm_mrr_eq rel k hempty]
      obtain ⟨h0, h1⟩ := mrrLoop_mem_unit rel.toFinset docs 0
      obtain ⟨g0, g1⟩ := pyRound4_mem_unit h0 h1
      exact ⟨g0, g1, pyRound4_shape _⟩
    · rw [crm_ndcg_eq rel k hempty]
      obtain ⟨h0, h1⟩ := calculate_ndcg_mem_unit docs rel.toFinset k hnd
      obtain ⟨g0, g1⟩ := pyRound4_mem_unit h0 h1
      exact ⟨g0, g1, pyRound4_shape _⟩

/-- Witness for the amended C4 bounds at a concrete input. -/
theorem retrieval_metrics_ranges_witness :
    (0 ≤ (calculate_retrieval_metrics ["a"] ["b"] 1).precision ∧
       (calculate_retrieval_metrics ["a"] ["b"] 1).precision ≤ 1 ∧
       ∃ z : ℤ, (calculate_retrieval_metrics ["a"] ["b"] 1).precision = (z : ℚ) / 10000) ∧
    (0 ≤ (calculate_retrieval_metrics ["a"] ["b"] 1).recall' ∧
       (calculate_retrieval_metrics ["a"] ["b"] 1).recall' ≤ 1 ∧
       ∃ z : ℤ, (calculate_retrieval_metrics ["a"] ["b"] 1).recall' = (z : ℚ) / 10000) ∧
    (0 ≤ (calculate_retrieval_metrics ["a"] ["b"] 1).f1_score ∧
       (calculate_retrieval_metrics ["a"] ["b"] 1).f1_score ≤ 1 ∧
       ∃ z : ℤ, (calculate_retrieval_metrics ["a"] ["b"] 1).f1_score = (z : ℚ) / 10000) ∧
    (0 ≤ (calculate_retrieval_metrics ["a"] ["b"] 1).mrr ∧
       (calculate_retrieval_metrics ["a"] ["b"] 1).mrr ≤ 1 ∧
       ∃ z : ℤ, (calculate_retrieval_metrics ["a"] ["b"] 1).mrr = (z : ℚ) / 10000) ∧
    (0 ≤ (calculate_retrieval_metrics ["a"] ["b"] 1).ndcg ∧
       (calculate_retrieval_metrics ["a"] ["b"] 1).ndcg ≤ 1 ∧
       ∃ z : ℤ, (calculate_retrieval_metrics ["a"] ["b"] 1).ndcg = (z : ℝ) / 10000) :=
  retrieval_metrics_ranges ["a"] ["b"] 1 (by simp)

theorem logb_two_four : Real.logb 2 4 = 2 := by
  have h4 : (4 : ℝ) = 2 ^ (2 : ℕ) := by norm_num
  rw [h4, Real.logb_pow, Real.logb_self_eq_one (by norm_num)]
  norm_num

/-- C4: every value returned by `calculate_retrieval_metrics` lies in
`[0, 1]` — REFUTED.  When the same id is retrieved three times and is the
only relevant id, DCG accumulates the discounted gain at every
occurrence while IDCG is capped by the number of distinct relevant ids,
so the returned `ndcg` exceeds 1. -/
theorem retrieval_metrics_range_cex :
    ¬ ((calculate_retrieval_metrics ["a", "a", "a"] ["a"] 3).ndcg ≤ 1) := by
  rw [crm_ndcg_eq ["a"] 3 (by simp), not_le]
  have hmem : "a" ∈ (["a"] : List String).toFinset := by simp
  have hcard : (["a"] : List String).toFinset.card = 1 := by simp
  have hlogb2 : Real.logb 2 2 = 1 := Real.logb_self_eq_one (by norm_num)
  have h3pos : 0 < Real.logb 2 3 := Real.logb_pos (by norm_num) (by norm_num)
  have h4pos : 0 < Real.logb 2 4 := Real.logb_pos (by norm_num) (by norm_num)
  have h3le : Real.logb 2 3 ≤ 2 := by
    have h := Real.logb_le_logb_of_le (by norm_num : (1:ℝ) < 2)
      (by norm_num : (0:ℝ) < 3) (by norm_num : (3:ℝ) ≤ 4)
    rwa [logb_two_four] at h
  have hinv3 : (1 : ℝ) / 2 ≤ 1 / Real.logb 2 3 :=
    one_div_le_one_div_of_le h3pos h3le
  have hinv4 : (0 : ℝ) ≤ 1 / Real.logb 2 4 := by positivity
  have hdcg : dcgLoop (["a"] : List String).toFinset ["a", "a", "a"] 0 =
      1 / Real.logb 2 2 + 1 / Real.logb 2 3 + 1 / Real.logb 2 4 := by
    simp only [dcgLoop, if_pos hmem]
    norm_num
    ring
  have hidcg : idcgSum (min (["a"] : List String).toFinset.card 3) = 1 := by
    rw [hcard]
    show idcgSum 1 = 1
    rw [idcgSum]
    rw [Finset.sum_range_one]
    norm_num [hlogb2]
  have hndcg : calculate_ndcg ["a", "a", "a"] (["a"] : List String).toFinset 3 =
      1 / Real.logb 2 2 + 1 / Real.logb 2 3 + 1 / Real.logb 2 4 := by
    simp only [calculate_ndcg]
    rw [show (["a", "a", "a"] : List String).take 3 = ["a", "a", "a"] from rfl,
      hidcg, hdcg]
    rw [if_pos one_pos, div_one]
  have hge : (3 : ℝ) / 2 ≤ calculate_ndcg ["a", "a", "a"] (["a"] : List String).toFinset 3 := by
    rw [hndcg, hlogb2]
    linarith
  have hr := pyRound4_ge (x := calculate_ndcg ["a", "a", "a"] (["a"] : List String).toFinset 3)
    (c := 15000) (by push_cast; nlinarith)
  have : (15000 : ℝ) / 10000 = 3 / 2 := by norm_num
  linarith [hr, this.symm.le]

/-- When every retrieved id is relevant, the DCG is the plain sum of the
discount weights. -/
theorem dcgLoop_all_relevant {α : Type} [DecidableEq α] (rel : Finset α) :
    ∀ l : List α, (∀ d ∈ l, d ∈ rel) → ∀ i,
      dcgLoop rel l i = ∑ j ∈ Finset.range l.length, discount (i + j) := by
  intro l
  induction l with
  | nil => intro _ i; simp [dcgLoop]
  | cons d ds ih =>
    intro hall i
    have hd : d ∈ rel := hall d (by simp)
    simp only [dcgLoop, if_pos hd, List.length_cons]
    rw [Finset.sum_range_succ', ih (fun x hx => hall x (by simp [hx])) (i + 1)]
    have h1 : (1 : ℝ) / Real.logb 2 ((i : ℝ) + 2) = discount (i + 0) := by
      simp [discount]
    rw [h1, Finset.sum_congr rfl (fun j _ => show discount (i + 1 + j) = discount (i + (j + 1)) by congr 1; omega)]
    ring

/-- C6 (amended): retrieving exactly the relevant ids, in any order,
with `k = len(retrieved)`, yields precision = recall = F1 = MRR = NDCG
= 1.0, PROVIDED the retrieved ids are pairwise distinct (with duplicates
precision drops below 1, see the counterexample). -/
theorem perfect_retrieval_metrics {α : Type} [DecidableEq α]
    (docs rel : List α) (hne : docs ≠ []) (hnd : docs.Nodup)
    (hrel : rel.toFinset = docs.toFinset) :
    (calculate_retrieval_metrics docs rel docs.length).precision = 1 ∧
    (calculate_retrieval_metrics docs rel docs.length).recall' = 1 ∧
    (calculate_retrieval_metrics docs rel docs.length).f1_score = 1 ∧
    (calculate_retrieval_metrics docs rel docs.length).mrr = 1 ∧
    (calculate_retrieval_metrics docs rel docs.length).ndcg = 1 := by
  have htake : docs.take docs.length = docs := List.take_length docs
  have hlenpos : 0 < docs.length := List.length_pos.mpr hne
  have hlen0 : docs.length ≠ 0 := Nat.pos_iff_ne_zero.mp hlenpos
  have hlenQ : ((docs.length : ℚ)) ≠ 0 := by exact_mod_cast hlen0
  have hinter : docs.toFinset ∩ rel.toFinset = docs.toFinset := by
    rw [hrel, Finset.inter_self]
  have hcardint : (docs.toFinset ∩ rel.toFinset).card = docs.length := by
    rw [hinter, List.toFinset_card_of_nodup hnd]
  have hcardrel : rel.toFinset.card = docs.length := by
    rw [hrel, List.toFinset_card_of_nodup hnd]
  refine ⟨?_, ?_, ?_, ?_, ?_⟩
  · rw [crm_precision_eq rel docs.length hne, htake, if_pos hne, hcardint,
      div_self hlenQ, pyRound4_one]
  · rw [crm_recall_eq rel docs.length hne, htake, hcardint, hcardrel,
      if_pos hlen0, div_self hlenQ, pyRound4_one]
  · rw [crm_f1_eq rel docs.length hne]
    simp only [htake, hcardint, hcardrel]
    rw [if_pos hne, if_pos hlen0, div_self hlenQ]
    norm_num [pyRound4_one]
  · rw [crm_mrr_eq rel docs.length hne]
    obtain ⟨d, ds, rfl⟩ := List.exists_cons_of_ne_nil hne
    have hd : d ∈ rel.toFinset := by
      rw [hrel]
      exact List.mem_toFinset.mpr (by simp)
    simp only [calculate_mrr, mrrLoop, if_pos hd]
    norm_num [pyRound4_one]
  · rw [crm_ndcg_eq rel docs.length hne]
    have hall : ∀ d ∈ docs, d ∈ rel.toFinset := fun d hd => by
      rw [hrel]; exact List.mem_toFinset.mpr hd
    simp only [calculate_ndcg, htake]
    rw [dcgLoop_all_relevant rel.toFinset docs hall 0, hcardrel, Nat.min_self,
      idcgSum_eq_sum_discount,
      Finset.sum_congr rfl (fun j _ => show discount (0 + j) = discount j by rw [Nat.zero_add])]
    have hS : 0 < ∑ j ∈ Finset.range docs.length, discount j :=
      Finset.sum_pos (fun j _ => discount_pos j)
        (by simpa [Finset.nonempty_range_iff] using hlen0)
    rw [if_pos hS, div_self (ne_of_gt hS), pyRound4_one]

/-- Witness for the amended C6 statement at a concrete input. -/
theorem perfect_retrieval_metrics_witness :
    (calculate_retrieval_metrics ["a"] ["a"] 1).precision = 1 ∧
    (calculate_retrieval_metrics ["a"] ["a"] 1).recall' = 1 ∧
    (calculate_retrieval_metrics ["a"] ["a"] 1).f1_score = 1 ∧
    (calculate_retrieval_metrics ["a"] ["a"] 1).mrr = 1 ∧
    (calculate_retrieval_metrics ["a"] ["a"] 1).ndcg = 1 :=
  perfect_retrieval_metrics ["a"] ["a"] (by simp) (by simp) rfl

/-- C6: retrieving exactly the relevant id set with `k = len(retrieved)`
always gives all five metrics equal to 1.0 — REFUTED when the retrieved
list repeats an id: `retrieved = ["a", "a"]`, `relevant = ["a"]`, `k = 2`
gives precision `= 1/2` (one distinct relevant id over two retrieved
positions). -/
theorem perfect_retrieval_metrics_cex :
    ¬ ((calculate_retrieval_metrics ["a", "a"] ["a"] 2).precision = 1 ∧
       (calculate_retrieval_metrics ["a", "a"] ["a"] 2).recall' = 1 ∧
       (calculate_retrieval_metrics ["a", "a"] ["a"] 2).f1_score = 1 ∧
       (calculate_retrieval_metrics ["a", "a"] ["a"] 2).mrr = 1 ∧
       (calculate_retrieval_metrics ["a", "a"] ["a"] 2).ndcg = 1) := by
  intro h
  have hp := h.1
  rw [crm_precision_eq ["a"] 2 (by simp)] at hp
  have hcardi : (((["a", "a"] : List String).take 2).toFinset ∩
      (["a"] : List String).toFinset).card = 1 := by decide
  rw [hcardi] at hp
  have hlen : (((["a", "a"] : List String).take 2).length : ℚ) = 2 := by norm_num
  rw [hlen] at hp
  rw [if_pos (by simp : ((["a", "a"] : List String).take 2) ≠ [])] at hp
  have heval : pyRound4 ((1 : ℚ) / 2) = 1 / 2 := by
    have h5000 := pyRound4_intCast (α := ℚ) 5000
    norm_num at h5000 ⊢
    exact h5000
  norm_num at hp
  rw [heval] at hp
  norm_num at hp

/-! ### NDCG as a discounted sum over positions -/

/-- `getD` of a `take` agrees with `getD` of the list inside the taken
range. -/
theorem getD_take_of_lt {α : Type} (l : List α) (d : α) :
    ∀ (k t : Nat), t < k → (l.take k).getD t d = l.getD t d := by
  induction l with
  | nil => intro k t _; simp
  | cons x xs ih =>
    intro k t ht
    cases k with
    | zero => omega
    | succ k' =>
      cases t with
      | zero => simp
      | succ t' =>
        show ((x :: xs.take k').getD (t' + 1) d) = (x :: xs).getD (t' + 1) d
        rw [List.getD_cons_succ, List.getD_cons_succ]
        exact ih k' t' (by omega)

/-- The DCG loop as a sum over positions, reading relevance through
`getD` (the default never matters inside the range). -/
theorem dcgLoop_eq_sum_getD {α : Type} [DecidableEq α] (rel : Finset α) (d₀ : α) :
    ∀ (l : List α) (i : Nat),
      dcgLoop rel l i =
        ∑ t ∈ Finset.range l.length,
          (if l.getD t d₀ ∈ rel then (1 : ℝ) else 0) * discount (i + t) := by
  intro l
  induction l with
  | nil => intro i; simp [dcgLoop]
  | cons d ds ih =>
    intro i
    simp only [dcgLoop, List.length_cons]
    rw [Finset.sum_range_succ', ih (i + 1)]
    have hzero : (if (d :: ds).getD 0 d₀ ∈ rel then (1:ℝ) else 0) * discount (i + 0) =
        (if d ∈ rel then (1:ℝ) else 0) * discount i := by
      rw [List.getD_cons_zero, Nat.add_zero]
    have hsucc : ∀ t, (if (d :: ds).getD (t + 1) d₀ ∈ rel then (1:ℝ) else 0) *
        discount (i + (t + 1)) =
        (if ds.getD t d₀ ∈ rel then (1:ℝ) else 0) * discount (i + 1 + t) := by
      intro t
      rw [List.getD_cons_succ]
      congr 2
      omega
    rw [Finset.sum_congr rfl fun t _ => hsucc t, hzero]
    have hdisc : (if d ∈ rel then (1:ℝ) else 0) / Real.logb 2 ((i:ℝ) + 2) =
        (if d ∈ rel then (1:ℝ) else 0) * discount i := by
      rw [discount, div_eq_mul_one_div]
    rw [hdisc]
    ring

/-- The truncated DCG of `_calculate_ndcg` as a sum over the first
`min k len` positions of the full list. -/
theorem dcg_take_eq_sum {α : Type} [DecidableEq α] (rel : Finset α) (d₀ : α)
    (l : List α) (k : Nat) :
    dcgLoop rel (l.take k) 0 =
      ∑ t ∈ Finset.range (min k l.length),
        (if l.getD t d₀ ∈ rel then (1 : ℝ) else 0) * discount t := by
  rw [dcgLoop_eq_sum_getD rel d₀ (l.take k) 0]
  rw [List.length_take]
  apply Finset.sum_congr rfl
  intro t ht
  rw [Finset.mem_range] at ht
  rw [getD_take_of_lt l d₀ k t (by omega)]
  rw [Nat.zero_add]

/-- C7: for a fixed relevant set and fixed `k`, swapping a relevant item
with a non-relevant item at a later position never increases the NDCG
computed by `_calculate_ndcg`.  The lists are decomposed as
`pre ++ [relevant] ++ mid ++ [non-relevant] ++ post` before the swap. -/
theorem ndcg_swap_non_increasing {α : Type} [DecidableEq α]
    (rel : Finset α) (k : Nat) (pre mid post : List α) (a b : α)
    (ha : a ∈ rel) (hb : b ∉ rel) :
    calculate_ndcg (pre ++ b :: (mid ++ a :: post)) rel k ≤
      calculate_ndcg (pre ++ a :: (mid ++ b :: post)) rel k := by
  set L1 := pre ++ a :: (mid ++ b :: post) with hL1
  set L2 := pre ++ b :: (mid ++ a :: post) with hL2
  set i := pre.length with hi
  set j := pre.length + 1 + mid.length with hj
  have hlen : L2.length = L1.length := by simp [hL1, hL2]
  have hij : i < j := by omega
  -- getD values at i, j, and elsewhere
  have hL1i : L1.getD i a = a := by
    rw [hL1, List.getD_append_right pre _ a i (le_refl _), Nat.sub_self,
      List.getD_cons_zero]
  have hL2i : L2.getD i a = b := by
    rw [hL2, List.getD_append_right pre _ a i (le_refl _), Nat.sub_self,
      List.getD_cons_zero]
  have hL1j : L1.getD j a = b := by
    rw [hL1, List.getD_append_right pre _ a j (by omega)]
    have hidx : j - pre.length = mid.length + 1 := by omega
    rw [hidx, List.getD_cons_succ,
      List.getD_append_right mid _ a mid.length (le_refl _), Nat.sub_self,
      List.getD_cons_zero]
  have hL2j : L2.getD j a = a := by
    rw [hL2, List.getD_append_right pre _ a j (by omega)]
    have hidx : j - pre.length = mid.length + 1 := by omega
    rw [hidx, List.getD_cons_succ,
      List.getD_append_right mid _ a mid.length (le_refl _), Nat.sub_self,
      List.getD_cons_zero]
  have hsame : ∀ t, t ≠ i → t ≠ j → L1.getD t a = L2.getD t a := by
    intro t hti htj
    by_cases h1 : t < pre.length
    · rw [hL1, hL2, List.getD_append _ _ _ _ h1, List.getD_append _ _ _ _ h1]
    · have h2 : pre.length < t := by omega
      rw [hL1, hL2, List.getD_append_right pre _ a t (by omega),
        List.getD_append_right pre _ a t (by omega)]
      obtain ⟨u, hu⟩ : ∃ u, t - pre.length = u + 1 := ⟨t - pre.length - 1, by omega⟩
      rw [hu, List.getD_cons_succ, List.getD_cons_succ]
      by_cases h3 : u < mid.length
      · rw [List.getD_append _ _ _ _ h3, List.getD_append _ _ _ _ h3]
      · have h4 : mid.length < u := by
          rcases Nat.lt_or_ge u mid.length with h | h
          · omega
          · rcases Nat.eq_or_lt_of_le h with h' | h'
            · exfalso; apply htj; omega
            · omega
        rw [List.getD_append_right mid _ a u (by omega),
          List.getD_append_right mid _ a u (by omega)]
        obtain ⟨v, hv⟩ : ∃ v, u - mid.length = v + 1 := ⟨u - mid.length - 1, by omega⟩
        rw [hv, List.getD_cons_succ, List.getD_cons_succ]
  -- compare the truncated DCG sums
  set m := min k L1.length with hm
  set f : Nat → ℝ := fun t => (if L1.getD t a ∈ rel then (1:ℝ) else 0) * discount t with hf
  set g : Nat → ℝ := fun t => (if L2.getD t a ∈ rel then (1:ℝ) else 0) * discount t with hg
  have hdiff : ∀ t ∈ Finset.range m, f t - g t =
      (if t = i then discount i else 0) + (if t = j then -discount j else 0) := by
    intro t _
    by_cases hti : t = i
    · have htj : t ≠ j := by omega
      rw [if_pos hti, if_neg htj, add_zero]
      simp only [hf, hg]
      rw [hti, hL1i, hL2i, if_pos ha, if_neg hb]
      ring
    · by_cases htj : t = j
      · rw [if_neg hti, if_pos htj, zero_add]
        simp only [hf, hg]
        rw [htj, hL1j, hL2j, if_neg hb, if_pos ha]
        ring
      · rw [if_neg hti, if_neg htj, add_zero]
        simp only [hf, hg]
        rw [hsame t hti htj]
        ring
  have hsumdiff : (∑ t ∈ Finset.range m, f t) - (∑ t ∈ Finset.range m, g t) =
      (if i ∈ Finset.range m then discount i else 0) +
      (if j ∈ Finset.range m then -discount j else 0) := by
    rw [← Finset.sum_sub_distrib, Finset.sum_congr rfl hdiff,
      Finset.sum_add_distrib,
      Finset.sum_ite_eq' (Finset.range m) i (fun _ => discount i),
      Finset.sum_ite_eq' (Finset.range m) j (fun _ => -discount j)]
  have hge : (∑ t ∈ Finset.range m, g t) ≤ ∑ t ∈ Finset.range m, f t := by
    have hnonneg : 0 ≤ (if i ∈ Finset.range m then discount i else 0) +
        (if j ∈ Finset.range m then -discount j else 0) := by
      by_cases hjm : j ∈ Finset.range m
      · have him : i ∈ Finset.range m := by
          rw [Finset.mem_range] at *
          omega
        rw [if_pos hjm, if_pos him]
        have := discount_antitone (le_of_lt hij)
        linarith
      · rw [if_neg hjm]
        by_cases him : i ∈ Finset.range m
        · rw [if_pos him]
          have := discount_pos i
          linarith
        · rw [if_neg him]
          norm_num
    linarith [hsumdiff]
  -- assemble NDCG
  have hnd_eq : ∀ L : List α, calculate_ndcg L rel k =
      if 0 < idcgSum (min rel.card k) then
        dcgLoop rel (L.take k) 0 / idcgSum (min rel.card k)
      else 0 := fun L => rfl
  rw [hnd_eq L1, hnd_eq L2, dcg_take_eq_sum rel a L1 k, dcg_take_eq_sum rel a L2 k,
    hlen]
  by_cases hpos : 0 < idcgSum (min rel.card k)
  · rw [if_pos hpos, if_pos hpos, div_le_div_right hpos]
    exact hge
  · rw [if_neg hpos, if_neg hpos]

/-- Witness for C7 at a concrete input: moving the single relevant id
from position 0 to position 1 does not increase NDCG. -/
theorem ndcg_swap_non_increasing_witness :
    calculate_ndcg ["b", "a"] ({"a"} : Finset String) 2 ≤
      calculate_ndcg ["a", "b"] ({"a"} : Finset String) 2 :=
  ndcg_swap_non_increasing {"a"} 2 [] [] [] "a" "b" (by simp) (by simp)

/-! ## Generation metrics (`evaluation_utils.py`)

`_extract_facts`, `_extract_key_terms` and `_extract_key_information`
(regex-based extraction helpers) are taken as parameters of the
functions that call them; the claims under study are independent of
their behaviour beyond emptiness of their output. -/

/-- The five-float dict returned by `calculate_generation_metrics`.
`bleu_score` involves `np.exp` and lives in `ℝ`; the rest are rational. -/
structure GenerationMetrics where
  bleu_score : ℝ
  rouge_score : ℚ
  relevance_score : ℚ
  consistency_score : ℚ
  completeness_score : ℚ

/-- `_calculate_bleu_score`: token-overlap precision with a brevity
penalty (the overlap loop counts, for each generated token, whether it
occurs anywhere in the reference tokens). -/
noncomputable def calculate_bleu_score (generated reference : List Char) : ℝ :=
  let gen_tokens := pyWords (pyLower generated)
  let ref_tokens := pyWords (pyLower reference)
  if gen_tokens = [] then 0
  else
    let overlaps : Nat := (gen_tokens.filter fun t => ref_tokens.contains t).length
    let precision : ℝ := (overlaps : ℝ) / (gen_tokens.length : ℝ)
    let bp : ℝ :=
      if ref_tokens.length ≤ gen_tokens.length then 1
      else Real.exp (1 - (ref_tokens.length : ℝ) / (gen_tokens.length : ℝ))
    bp * precision

/-- `_calculate_rouge_score`: token-set recall against the reference. -/
def calculate_rouge_score (generated reference : List Char) : ℚ :=
  let gen_tokens := (pyWords (pyLower generated)).toFinset
  let ref_tokens := (pyWords (pyLower reference)).toFinset
  if ref_tokens.card = 0 then 0
  else ((gen_tokens ∩ ref_tokens).card : ℚ) / (ref_tokens.card : ℚ)

/-- `_is_contradictory`: the loop either returns `False` early (when the
facts differ and the answer fact is longer than 3 characters) or falls
through to `return False`. -/
def is_contradictory (fact : List Char) : List (List Char) → Bool
  | [] => false
  | cf :: rest =>
    if pyLower fact ≠ pyLower cf ∧ 3 < (pyLower fact).length then false
    else is_contradictory fact rest

/-- `_calculate_answer_relevance` (with `_extract_key_terms` as the
`extract_key_terms` parameter); the context is the list of the context
documents' `content` strings. -/
def calculate_answer_relevance (extract_key_terms : List Char → List (List Char))
    (answer : List Char) (context : List (List Char)) : ℚ :=
  if context = [] then 0
  else
    let context_terms := (extract_key_terms (spaceJoin context)).toFinset
    let answer_terms := (extract_key_terms answer).toFinset
    if context_terms.card = 0 then 0
    else min (((answer_terms ∩ context_terms).card : ℚ) / (context_terms.card : ℚ)) 1

/-- `_calculate_factual_consistency` (with `_extract_facts` as the
`extract_facts` parameter). -/
def calculate_factual_consistency (extract_facts : List Char → List (List Char))
    (answer : List Char) (context : List (List Char)) : ℚ :=
  if context = [] then 0
  else
    let context_facts := extract_facts (spaceJoin context)
    let answer_facts := extract_facts answer
    if context_facts = [] then 1
    else
      let contradictions : Nat :=
        (answer_facts.filter fun f => is_contradictory f context_facts).length
      let consistency : ℚ :=
        if answer_facts ≠ [] then 1 - (contradictions : ℚ) / (answer_facts.length : ℚ)
        else 1
      max consistency 0

/-- `_calculate_answer_completeness` (with `_extract_key_information` as
the `extract_key_information` parameter, returning a Python set). -/
def calculate_answer_completeness (extract_key_information : List Char → Finset (List Char))
    (generated reference : List Char) : ℚ :=
  if reference = [] then 1
  else
    let ref_info := extract_key_information reference
    let gen_info := extract_key_information generated
    if ref_info.card = 0 then 1
    else ((ref_info ∩ gen_info).card : ℚ) / (ref_info.card : ℚ)

/-- `calculate_generation_metrics`: the five generation-quality scores,
each rounded to 4 decimal places. -/
noncomputable def calculate_generation_metrics
    (extract_facts extract_key_terms : List Char → List (List Char))
    (extract_key_information : List Char → Finset (List Char))
    (generated_answer reference_answer : List Char)
    (context : List (List Char)) : GenerationMetrics :=
  { bleu_score := pyRound4 (calculate_bleu_score generated_answer reference_answer)
    rouge_score := pyRound4 (calculate_rouge_score generated_answer reference_answer)
    relevance_score :=
      pyRound4 (calculate_answer_relevance extract_key_terms generated_answer context)
    consistency_score :=
      pyRound4 (calculate_factual_consistency extract_facts generated_answer context)
    completeness_score :=
      pyRound4 (calculate_answer_completeness extract_key_information
        generated_answer reference_answer) }

/-- Both exits of the `_is_contradictory` loop return `False`. -/
theorem is_contradictory_eq_false (fact : List Char) :
    ∀ facts : List (List Char), is_contradictory fact facts = false := by
  intro facts
  induction facts with
  | nil => rfl
  | cons cf rest ih =>
    simp only [is_contradictory]
    split
    · rfl
    · exact ih

/-- C8 (amended): when the generated answer equals the reference answer
AND the answer has at least one whitespace-separated token,
`calculate_generation_metrics` returns `bleu_score = 1.0` and
`rouge_score = 1.0` (for a token-less answer both scores are 0.0, see
the counterexample). -/
theorem identical_answer_perfect_scores
    (ef ekt : List Char → List (List Char)) (eki : List Char → Finset (List Char))
    (ans : List Char) (ctx : List (List Char))
    (hne : pyWords (pyLower ans) ≠ []) :
    (calculate_generation_metrics ef ekt eki ans ans ctx).bleu_score = 1 ∧
    (calculate_generation_metrics ef ekt eki ans ans ctx).rouge_score = 1 := by
  have hlen0 : (pyWords (pyLower ans)).length ≠ 0 := by
    simpa [List.length_eq_zero] using hne
  have hlenR : ((pyWords (pyLower ans)).length : ℝ) ≠ 0 := by exact_mod_cast hlen0
  have hbleu : calculate_bleu_score ans ans = 1 := by
    simp only [calculate_bleu_score]
    rw [if_neg hne]
    have hfilter : ((pyWords (pyLower ans)).filter fun t =>
        (pyWords (pyLower ans)).contains t) = pyWords (pyLower ans) := by
      apply List.filter_eq_self.mpr
      intro x hx
      simpa using hx
    rw [hfilter, if_pos (le_refl _), one_mul, div_self hlenR]
  have hrouge : calculate_rouge_score ans ans = 1 := by
    simp only [calculate_rouge_score]
    have hcard : (pyWords (pyLower ans)).toFinset.card ≠ 0 := by
      rw [Ne, Finset.card_eq_zero]
      simpa [List.toFinset_eq_empty_iff] using hne
    have hcardQ : (((pyWords (pyLower ans)).toFinset.card : ℚ)) ≠ 0 := by
      exact_mod_cast hcard
    rw [if_neg hcard, Finset.inter_self, div_self hcardQ]
  constructor
  · show pyRound4 (calculate_bleu_score ans ans) = 1
    rw [hbleu, pyRound4_one]
  · show pyRound4 (calculate_rouge_score ans ans) = 1
    rw [hrouge, pyRound4_one]

/-- Witness for the amended C8 statement at a concrete input. -/
theorem identical_answer_perfect_scores_witness :
    (calculate_generation_metrics (fun _ => []) (fun _ => []) (fun _ => ∅)
        "Hi".toList "Hi".toList []).bleu_score = 1 ∧
    (calculate_generation_metrics (fun _ => []) (fun _ => []) (fun _ => ∅)
        "Hi".toList "Hi".toList []).rouge_score = 1 :=
  identical_answer_perfect_scores (fun _ => []) (fun _ => []) (fun _ => ∅)
    "Hi".toList [] (by decide)

/-- C8: for EVERY answer string, generated = reference gives
`bleu_score = rouge_score = 1.0` — REFUTED for the empty answer: both
scores are 0.0 because the tokenizations are empty. -/
theorem identical_answer_perfect_scores_cex :
    ¬ ((calculate_generation_metrics (fun _ => []) (fun _ => []) (fun _ => ∅)
          [] [] []).bleu_score = 1 ∧
       (calculate_generation_metrics (fun _ => []) (fun _ => []) (fun _ => ∅)
          [] [] []).rouge_score = 1) := by
  intro h
  have hb := h.1
  have hbleu : calculate_bleu_score [] [] = 0 := by
    simp only [calculate_bleu_score]
    rw [if_pos (show pyWords (pyLower []) = [] from rfl)]
  have : (calculate_generation_metrics (fun _ => []) (fun _ => []) (fun _ => ∅)
      [] [] []).bleu_score = pyRound4 (calculate_bleu_score [] []) := rfl
  rw [this, hbleu, pyRound4_zero] at hb
  norm_num at hb

/-- C9: `_is_contradictory` always returns `False`, and therefore
`_calculate_factual_consistency` returns 1.0 for every answer and every
non-empty context whose joined contents yield at least one extracted
fact (`_extract_facts` abstracted as a parameter; the result does not
depend on it beyond non-emptiness). -/
theorem contradiction_check_stub :
    (∀ (fact : List Char) (facts : List (List Char)),
        is_contradictory fact facts = false) ∧
    (∀ (extract_facts : List Char → List (List Char)) (answer : List Char)
        (context : List (List Char)), context ≠ [] →
        extract_facts (spaceJoin context) ≠ [] →
        calculate_factual_consistency extract_facts answer context = 1) := by
  constructor
  · exact is_contradictory_eq_false
  · intro ef answer ctx hctx hfacts
    simp only [calculate_factual_consistency]
    rw [if_neg hctx, if_neg hfacts]
    have hfilter : ((ef answer).filter fun f =>
        is_contradictory f (ef (spaceJoin ctx))) = [] := by
      apply List.filter_eq_nil_iff.mpr
      intro f _
      rw [is_contradictory_eq_false]
      exact Bool.false_ne_true
    rw [hfilter]
    by_cases hans : ef answer ≠ []
    · rw [if_pos hans]
      simp
    · rw [if_neg hans]
      simp

/-- Witness for C9's conditional part at a concrete input. -/
theorem contradiction_check_stub_witness :
    calculate_factual_consistency (fun _ => [['x']]) [] [['y']] = 1 :=
  contradiction_check_stub.2 (fun _ => [['x']]) [] [['y']] (by simp) (by simp)

/-! ## MRR and its independence of `k` -/

/-- The rank characterization from the claim: the 0-based position of
the first document of the FULL retrieved list whose id is relevant. -/
def first_relevant_rank {α : Type} [DecidableEq α] (rel : Finset α) :
    List α → Option Nat
  | [] => none
  | d :: ds =>
    if d ∈ rel then some 0 else (first_relevant_rank rel ds).map (· + 1)

/-- The `_calculate_mrr` loop agrees with the rank characterization. -/
theorem mrrLoop_eq_rank {α : Type} [DecidableEq α] (rel : Finset α) :
    ∀ (docs : List α) (i : Nat),
      mrrLoop rel docs i =
        match first_relevant_rank rel docs with
        | some t => 1 / ((i : ℚ) + (t : ℚ) + 1)
        | none => 0 := by
  intro docs
  induction docs with
  | nil => intro i; simp [mrrLoop, first_relevant_rank]
  | cons d ds ih =>
    intro i
    by_cases hd : d ∈ rel
    · simp only [mrrLoop, first_relevant_rank, if_pos hd]
      norm_num
    · simp only [mrrLoop, first_relevant_rank, if_neg hd]
      rw [ih (i + 1)]
      cases hrank : first_relevant_rank rel ds with
      | none => simp
      | some t =>
        simp only [Option.map_some']
        push_cast
        congr 1
        ring

/-- C10 (amended): the `mrr` value returned by
`calculate_retrieval_metrics` is independent of `k`, and equals the
ROUNDED reciprocal rank `round(1 / rank, 4)` of the first relevant
document of the full retrieved list (0.0 when none); with `k = 0` the
returned `mrr` is 1.0 while precision, recall and ndcg are all 0.0. -/
theorem mrr_independent_of_k :
    (∀ (α : Type) (inst : DecidableEq α) (docs rel : List α) (k k' : Nat),
        (@calculate_retrieval_metrics α inst docs rel k).mrr =
          (@calculate_retrieval_metrics α inst docs rel k').mrr) ∧
    (∀ (α : Type) (inst : DecidableEq α) (docs rel : List α) (k : Nat),
        (@calculate_retrieval_metrics α inst docs rel k).mrr =
          pyRound4 (match @first_relevant_rank α inst rel.toFinset docs with
            | some t => (1 : ℚ) / ((t : ℚ) + 1)
            | none => 0)) ∧
    ((calculate_retrieval_metrics ["a"] ["a"] 0).mrr = 1 ∧
       (calculate_retrieval_metrics ["a"] ["a"] 0).precision = 0 ∧
       (calculate_retrieval_metrics ["a"] ["a"] 0).recall' = 0 ∧
       (calculate_retrieval_metrics ["a"] ["a"] 0).ndcg = 0) := by
  have hformula : ∀ (α : Type) (inst : DecidableEq α) (docs rel : List α) (k : Nat),
      (@calculate_retrieval_metrics α inst docs rel k).mrr =
        pyRound4 (match @first_relevant_rank α inst rel.toFinset docs with
          | some t => (1 : ℚ) / ((t : ℚ) + 1)
          | none => 0) := by
    intro α inst docs rel k
    by_cases hempty : docs = []
    · subst hempty
      rw [crm_empty]
      show (0 : ℚ) = pyRound4 (0 : ℚ)
      rw [pyRound4_zero]
    · rw [crm_mrr_eq rel k hempty]
      congr 1
      rw [calculate_mrr, mrrLoop_eq_rank]
      cases first_relevant_rank rel.toFinset docs with
      | none => rfl
      | some t => norm_num
  refine ⟨?_, hformula, ?_, ?_, ?_, ?_⟩
  · intro α inst docs rel k k'
    rw [hformula α inst docs rel k, hformula α inst docs rel k']
  · rw [crm_mrr_eq ["a"] 0 (by simp)]
    have hm : calculate_mrr ["a"] (["a"] : List String).toFinset = 1 := by
      simp [calculate_mrr, mrrLoop]
    rw [hm, pyRound4_one]
  · rw [crm_precision_eq ["a"] 0 (by simp)]
    rw [if_neg (by simp : ¬ ((["a"] : List String).take 0 ≠ []))]
    exact pyRound4_zero
  · rw [crm_recall_eq ["a"] 0 (by simp)]
    have hcard : (["a"] : List String).toFinset.card = 1 := by simp
    rw [if_pos (by rw [hcard]; norm_num)]
    have hinter : (((["a"] : List String).take 0).toFinset ∩
        (["a"] : List String).toFinset).card = 0 := by decide
    rw [hinter]
    norm_num [pyRound4_zero]
  · rw [crm_ndcg_eq ["a"] 0 (by simp)]
    have hnd : calculate_ndcg ["a"] (["a"] : List String).toFinset 0 = 0 := by
      simp only [calculate_ndcg]
      rw [if_neg]
      rw [Nat.min_zero]
      simp [idcgSum]
    rw [hnd, pyRound4_zero]

/-- C10: the returned `mrr` EQUALS `1 /` (1-based first relevant
position) — REFUTED for position 3: the returned value is rounded to 4
decimal places, `0.3333 ≠ 1/3`. -/
theorem mrr_independent_of_k_cex :
    (calculate_retrieval_metrics ["b", "c", "a"] ["a"] 3).mrr ≠ 1 / 3 := by
  rw [crm_mrr_eq ["a"] 3 (by simp)]
  have hm : calculate_mrr ["b", "c", "a"] (["a"] : List String).toFinset = 1 / 3 := by
    simp [calculate_mrr, mrrLoop]
    norm_num
  rw [hm]
  have heval : pyRound4 ((1 : ℚ) / 3) = 3333 / 10000 := by
    unfold pyRound4 pyRound
    rw [if_pos (by rw [Int.fract]; norm_num)]
    norm_num
  rw [heval]
  norm_num

/-- Witness: C10's k-independence at a concrete input. -/
theorem mrr_independent_of_k_witness :
    (calculate_retrieval_metrics ["b", "c", "a"] ["a"] 5).mrr =
      (calculate_retrieval_metrics ["b", "c", "a"] ["a"] 1).mrr :=
  mrr_independent_of_k.1 String inferInstance ["b", "c", "a"] ["a"] 5 1

/-- Witness: the amended C2 statement at a concrete configuration and
chunker. -/
theorem process_empty_content_witness :
    process defaultChunkingConfig (fun _ => []) [] =
      { success := false
        error_message := some "No content provided for chunking".toList
        chunks := [] } :=
  process_empty_content defaultChunkingConfig (fun _ => [])

/-- Witness: the amended C3 statement at a concrete content. -/
theorem detect_language_first_match_witness :
    detect_language jsHeavyContent "code" =
      (language_patterns.find? fun lp =>
        lp.2.any fun p => research p jsHeavyContent).map Prod.fst :=
  detect_language_first_match jsHeavyContent

end Beetle
